import Mathlib

/-!
Verification development for the request-parameter view of the jsonrpsee
repository (`core/src/server/params.rs`).

The module under study wraps a `common::Params` container (no parameters,
a positional array of JSON values, or an insertion-ordered map of string
keys to JSON values) and offers keyed lookup (`get_raw`), typed decoding
(`get`), iteration (`into_iter` / `Iter`) and debug rendering.

Embedding conventions:
- Rust `Option` becomes Lean `Option`; Rust `Result<T, ()>` becomes
  `Except Unit T`.
- The `unimplemented!()` panic in `into_iter` for the array case is
  modelled by `Option`, the `none` value standing for abnormal abort of
  the process; no recoverable-error constructor exists, matching the Rust
  signature which offers no error channel.
- `serde_json::from_value::<T>` is external library code; it is modelled
  as an explicit structural decoder argument `dec : Json -> Option T`.
-/

set_option autoImplicit false

namespace Jsonrpsee

namespace Common

/-- Modelled from the spec: the generic JSON-like value model consumed by
the view (`common::JsonValue`, i.e. `serde_json::Value`), whose definition
lives outside the provided sources. Numbers are abstracted as integers;
no claim depends on the numeric representation. -/
inductive Json where
  | null
  | bool (b : Bool)
  | num (n : Int)
  | str (s : String)
  | arr (l : List Json)
  | obj (l : List (String × Json))

/-- Modelled from the spec: the tagged parameter container
(`common::Params`, produced by the message-decoding layer outside the
provided sources): no parameters, an ordered sequence of JSON values, or
an insertion-ordered mapping from string keys to JSON values. The mapping
is represented by its insertion-ordered association list. -/
inductive Params where
  | None
  | Array (l : List Json)
  | Map (m : List (String × Json))

/-- Modelled from the spec: lookup in the insertion-ordered mapping
(`serde_json::Map::get`): the value of the first entry whose key equals
the requested key, if any. -/
def mapGet (key : String) : List (String × Json) → Option Json
  | [] => none
  | (k, v) :: rest => if k = key then some v else mapGet key rest

end Common

namespace Server

/-- Key referring to a potential parameter of a request (`ParamKey` in
`core/src/server/params.rs`): a string key, valid for map containers, or
an integer index, valid for array containers. -/
inductive ParamKey where
  | String (s : String)
  | Index (i : Nat)

/-- Access to the parameters of a request (`Params` in
`core/src/server/params.rs`): a borrowing wrapper around a
`common::Params` container. -/
structure Params where
  params : Common.Params

/-- Embeds `Params::from`: wraps a container reference into a view. -/
def Params.from' (params : Common.Params) : Params :=
  ⟨params⟩

/-- Embeds `Params::get_raw`: returns a parameter of the request by key,
by match on the container variant and the key kind. -/
def Params.get_raw (self : Params) (param : ParamKey) : Option Common.Json :=
  match self.params, param with
  | Common.Params.None, _ => none
  | Common.Params.Map map, ParamKey.String key => Common.mapGet key map
  | Common.Params.Map _, ParamKey.Index _ => none
  | Common.Params.Array _, ParamKey.String _ => none
  | Common.Params.Array array, ParamKey.Index index =>
      if h : index < array.length then some (array.get ⟨index, h⟩) else none

/-- Embeds `Params::get`: looks the parameter up with `get_raw`, failing
with the unit error if absent, then applies the structural decoder
(`serde_json::from_value`, abstracted as `dec`), failing with the same
unit error when decoding fails. -/
def Params.get {T : Type} (self : Params) (dec : Common.Json → Option T)
    (param : ParamKey) : Except Unit T :=
  match self.get_raw param with
  | none => Except.error ()
  | some val =>
      match dec val with
      | none => Except.error ()
      | some t => Except.ok t

/-- Embeds `IterInner`: state of the parameter iterator, either the empty
iteration or the remaining entries of a map iteration. -/
inductive IterInner where
  | Empty
  | Map (rest : List (String × Common.Json))

/-- Embeds `Iter`, the iterator over all the parameters of a request. -/
structure Iter where
  inner : IterInner

/-- Embeds `Params::into_iter`: `none` models the `unimplemented!()`
abnormal abort taken for array (positional) containers; the other two
variants build a working iterator. -/
def Params.into_iter (self : Params) : Option Iter :=
  match self.params with
  | Common.Params.None => some ⟨IterInner.Empty⟩
  | Common.Params.Array _ => none
  | Common.Params.Map map => some ⟨IterInner.Map map⟩

/-- Embeds `Iter::next`: yields the next (key, value) pair together with
the advanced iterator, or `none` when exhausted. Map entries are yielded
as `(ParamKey.String key, value)` in list (insertion) order. -/
def Iter.next : Iter → Option ((ParamKey × Common.Json) × Iter)
  | ⟨IterInner.Empty⟩ => none
  | ⟨IterInner.Map []⟩ => none
  | ⟨IterInner.Map ((k, v) :: rest)⟩ =>
      some ((ParamKey.String k, v), ⟨IterInner.Map rest⟩)

/-- Embeds `Iter::size_hint`: the empty case reports exactly zero, the map
case reports the exact remaining length of the underlying map iterator. -/
def Iter.size_hint : Iter → Nat × Option Nat
  | ⟨IterInner.Empty⟩ => (0, some 0)
  | ⟨IterInner.Map rest⟩ => (rest.length, some rest.length)

/-- The full sequence of items an iterator state will yield; used to state
properties of the iteration protocol. -/
def Iter.collect : Iter → List (ParamKey × Common.Json)
  | ⟨IterInner.Empty⟩ => []
  | ⟨IterInner.Map rest⟩ => rest.map fun kv => (ParamKey.String kv.1, kv.2)

/-- Embeds `impl fmt::Debug for ParamKey`: a string key renders like the
debug form of the string, an index key like the decimal form of the
integer. -/
def debugFmtKey (k : ParamKey) : String :=
  match k with
  | ParamKey.String s => reprStr s
  | ParamKey.Index i => toString i

/-- Embeds `impl fmt::Debug for Params`: the rendering lists the entries
produced by `into_iter` (the value side stays as the located JSON value,
its textual form being external `serde_json` machinery). `none` models
the panic propagated from `into_iter`. -/
def Params.debugFmt (self : Params) : Option (List (String × Common.Json)) :=
  (self.into_iter).map fun it =>
    (Iter.collect it).map fun kv => (debugFmtKey kv.1, kv.2)

/-- Embeds `impl AsRef<common::Params> for Params`: exposes the wrapped
container unchanged. -/
def Params.as_ref (self : Params) : Common.Params :=
  self.params

/-- Embeds `impl Into<&common::Params> for Params`: the same exposure of
the wrapped container. -/
def Params.intoRef (self : Params) : Common.Params :=
  self.params

end Server

/-- Spec-side construction used by the round-trip property: a container
holding the value `v` at the key `k`; a string key yields a one-entry
mapping, an index key an array whose index `i` holds `v` (padded with
nulls below it). -/
def storeAt (k : Server.ParamKey) (v : Common.Json) : Common.Params :=
  match k with
  | Server.ParamKey.String s => Common.Params.Map [(s, v)]
  | Server.ParamKey.Index i =>
      Common.Params.Array (List.replicate i Common.Json.null ++ [v])

/-! Helper lemmas shared by the claim theorems. -/

/-- The embedded map lookup agrees with `List.lookup`. -/
theorem mapGet_eq_lookup (m : List (String × Common.Json)) (key : String) :
    Common.mapGet key m = List.lookup key m := by
  induction m with
  | nil => rfl
  | cons kv rest ih =>
      obtain ⟨k, v⟩ := kv
      by_cases h : k = key
      · subst h
        simp [Common.mapGet, List.lookup]
      · have hbeq : (key == k) = false := by
          simp [Ne.symm h]
        simp [Common.mapGet, List.lookup, h, hbeq, ih]

/-- Array lookup through the view agrees with `List.get?`. -/
theorem get_raw_array_eq (a : List Common.Json) (i : Nat) :
    (Server.Params.from' (Common.Params.Array a)).get_raw (Server.ParamKey.Index i)
      = a.get? i := by
  have hred : (Server.Params.from' (Common.Params.Array a)).get_raw
        (Server.ParamKey.Index i)
      = if h : i < a.length then some (a.get ⟨i, h⟩) else none := rfl
  rw [hred]
  by_cases h : i < a.length
  · rw [dif_pos h]
    exact (List.get?_eq_get h).symm
  · rw [dif_neg h]
    exact (List.get?_eq_none.mpr (Nat.le_of_not_lt h)).symm

/-- Unfolding step: `Iter.collect` is exactly the sequence generated by
repeated `Iter.next`. -/
theorem collect_eq_next_step (it : Server.Iter) :
    Server.Iter.collect it
      = match Server.Iter.next it with
        | none => []
        | some (x, it') => x :: Server.Iter.collect it' := by
  obtain ⟨inner⟩ := it
  cases inner with
  | Empty => rfl
  | Map rest =>
      cases rest with
      | nil => rfl
      | cons kv rest => rfl

/-- Index `i` of an array padded with `i` nulls below its last element
holds that element. -/
theorem get?_replicate_append (i : Nat) (v : Common.Json) :
    (List.replicate i Common.Json.null ++ [v]).get? i = some v := by
  induction i with
  | zero => rfl
  | succ n ih =>
      simp only [List.replicate_succ, List.cons_append, List.get?_cons_succ]
      exact ih

/-- Under key uniqueness, membership in the map coincides with a
successful lookup. -/
theorem mem_iff_mapGet (m : List (String × Common.Json))
    (h : (m.map Prod.fst).Nodup) (k : String) (v : Common.Json) :
    (k, v) ∈ m ↔ Common.mapGet k m = some v := by
  induction m with
  | nil => simp [Common.mapGet]
  | cons kv rest ih =>
      obtain ⟨k', v'⟩ := kv
      simp only [List.map_cons, List.nodup_cons] at h
      obtain ⟨hnotin, hrest⟩ := h
      by_cases hk : k' = k
      · subst hk
        constructor
        · intro hmem
          rcases List.mem_cons.mp hmem with heq | hmem'
          · obtain ⟨_, rfl⟩ := Prod.mk.injEq .. ▸ heq
            simp [Common.mapGet]
          · exact absurd (List.mem_map.mpr ⟨(k', v), hmem', rfl⟩) hnotin
        · intro hget
          simp only [Common.mapGet, if_pos rfl] at hget
          obtain rfl := Option.some.injEq .. ▸ hget
          exact List.mem_cons_self _ _
      · simp only [Common.mapGet, if_neg hk]
        rw [← ih hrest]
        constructor
        · intro hmem
          rcases List.mem_cons.mp hmem with heq | hmem'
          · exact absurd (congrArg Prod.fst heq).symm hk
          · exact hmem'
        · intro hmem'
          exact List.mem_cons_of_mem _ hmem'

/-- Under key uniqueness, a key that looks up successfully occurs exactly
once among the entries. -/
theorem countP_key_eq_one (m : List (String × Common.Json))
    (h : (m.map Prod.fst).Nodup) (k : String) (v : Common.Json)
    (hget : Common.mapGet k m = some v) :
    m.countP (fun kv => kv.1 == k) = 1 := by
  induction m with
  | nil => simp [Common.mapGet] at hget
  | cons kv rest ih =>
      obtain ⟨k', v'⟩ := kv
      simp only [List.map_cons, List.nodup_cons] at h
      obtain ⟨hnotin, hrest⟩ := h
      by_cases hk : k' = k
      · subst hk
        have hzero : rest.countP (fun kv => kv.1 == k') = 0 := by
          rw [List.countP_eq_zero]
          intro kv hkv hbeq
          exact hnotin (List.mem_map.mpr ⟨kv, hkv, eq_of_beq hbeq⟩)
        rw [List.countP_cons]
        simp [hzero]
      · have hbeq : ((k', v').1 == k) = false := by
          simp [hk]
        rw [List.countP_cons]
        simp only [Common.mapGet, if_neg hk] at hget
        simp [hbeq, ih hrest hget]

/-! Claim theorems. -/

/-- C1: `get_raw` follows the variant-by-key-kind table: a `None`
container yields absent for any key; a mapping container with a named key
yields the value at that key if present (`List.lookup`), else absent; a
mapping container with a positional key yields absent; a sequence
container with a named key yields absent; a sequence container with
`Positional(i)` yields the element at index `i` exactly when `i` is in
range (`List.get?`), else absent. -/
theorem get_raw_follows_table :
    (∀ k, (Server.Params.from' Common.Params.None).get_raw k = none)
    ∧ (∀ m key, (Server.Params.from' (Common.Params.Map m)).get_raw
          (Server.ParamKey.String key) = List.lookup key m)
    ∧ (∀ m i, (Server.Params.from' (Common.Params.Map m)).get_raw
          (Server.ParamKey.Index i) = none)
    ∧ (∀ a s, (Server.Params.from' (Common.Params.Array a)).get_raw
          (Server.ParamKey.String s) = none)
    ∧ (∀ a i, (Server.Params.from' (Common.Params.Array a)).get_raw
          (Server.ParamKey.Index i) = a.get? i) := by
  refine ⟨?_, ?_, ?_, ?_, ?_⟩
  · intro k
    cases k <;> rfl
  · intro m key
    exact mapGet_eq_lookup m key
  · intro m i
    rfl
  · intro a s
    rfl
  · intro a i
    exact get_raw_array_eq a i

/-- C2 (code bug): the claim says producing the debug rendering of the
view never aborts the process, in particular over a sequence (positional)
container; the code's `Debug::fmt` calls `into_iter`, which executes
`unimplemented!()` for array containers, so rendering a view over a
sequence container aborts. Evaluated here at the concrete container
`Array [10]`: the rendering aborts (modelled as `none`). -/
theorem debugFmt_array_aborts :
    (Server.Params.from' (Common.Params.Array [Common.Json.num 10])).debugFmt
      = none := rfl

/-- C3: for every sequence container, beginning iteration over the view
aborts abnormally (`unimplemented!()`, modelled as `none`); the
positional-iteration case is not provided, and the return type offers no
recoverable-error channel. -/
theorem into_iter_array_aborts (a : List Common.Json) :
    (Server.Params.from' (Common.Params.Array a)).into_iter = none := rfl

/-- C4: `get` fails exactly when `get_raw` is absent or structural
decoding of the located value fails, always with the single
undifferentiated error value `()`; it succeeds with `t` exactly when the
located value decodes to `t`. -/
theorem get_error_iff {T : Type} (dec : Common.Json → Option T)
    (p : Server.Params) (k : Server.ParamKey) :
    (p.get dec k = Except.error ()
      ↔ p.get_raw k = none ∨ ∃ v, p.get_raw k = some v ∧ dec v = none)
    ∧ (∀ t, p.get dec k = Except.ok t
      ↔ ∃ v, p.get_raw k = some v ∧ dec v = some t) := by
  have hdef : p.get dec k
      = match p.get_raw k with
        | none => Except.error ()
        | some val =>
            match dec val with
            | none => Except.error ()
            | some t => Except.ok t := rfl
  cases hr : p.get_raw k with
  | none => simp [hdef, hr]
  | some v =>
      cases hd : dec v with
      | none => simp [hdef, hr, hd]
      | some t => simp [hdef, hr, hd, eq_comm]

/-- C5: iteration over a view of a `None` container yields the empty
sequence, and iteration over a view of a mapping container yields exactly
the `(Named(key), value)` pairs of the mapping in the mapping's insertion
order, i.e. the order of the underlying association list. -/
theorem into_iter_none_and_map_cases :
    ((Server.Params.from' Common.Params.None).into_iter).map Server.Iter.collect
        = some []
    ∧ ∀ m, ((Server.Params.from' (Common.Params.Map m)).into_iter).map
          Server.Iter.collect
        = some (m.map fun kv => (Server.ParamKey.String kv.1, kv.2)) :=
  ⟨rfl, fun _ => rfl⟩

/-- C6: for a sequence container, an out-of-range positional index is
reported as absent; `get_raw` is a total function into `Option` (no panic,
no error channel), so it never panics and never returns an error. -/
theorem get_raw_out_of_range (a : List Common.Json) (i : Nat)
    (h : a.length ≤ i) :
    (Server.Params.from' (Common.Params.Array a)).get_raw
      (Server.ParamKey.Index i) = none := by
  rw [get_raw_array_eq]
  exact List.get?_eq_none.mpr h

/-- Witness for C6 at the sequence `[10, 20, 30]` and index `3`. -/
theorem get_raw_out_of_range_witness :
    (List.length [Common.Json.num 10, Common.Json.num 20, Common.Json.num 30]
        ≤ 3)
    ∧ (Server.Params.from'
        (Common.Params.Array
          [Common.Json.num 10, Common.Json.num 20, Common.Json.num 30])).get_raw
        (Server.ParamKey.Index 3) = none :=
  ⟨by decide, get_raw_out_of_range _ 3 (by decide)⟩

/-- C7: `get` round-trips: storing `v` at key `k` in a container and
calling `get` with decoder `dec` on its view returns the decoded form of
`v` when `v` structurally matches the target (`dec v = some t`), and
fails when it does not (`dec v = none`). -/
theorem get_roundtrip {T : Type} (dec : Common.Json → Option T)
    (k : Server.ParamKey) (v : Common.Json) :
    (Server.Params.from' (storeAt k v)).get dec k
      = (dec v).elim (Except.error ()) Except.ok := by
  have hraw : (Server.Params.from' (storeAt k v)).get_raw k = some v := by
    cases k with
    | String s =>
        show Common.mapGet s [(s, v)] = some v
        simp [Common.mapGet]
    | Index i =>
        show (Server.Params.from'
            (Common.Params.Array (List.replicate i Common.Json.null ++ [v]))).get_raw
            (Server.ParamKey.Index i) = some v
        rw [get_raw_array_eq]
        exact get?_replicate_append i v
  have hstep : (Server.Params.from' (storeAt k v)).get dec k
      = match dec v with
        | none => Except.error ()
        | some t => Except.ok t := by
    unfold Server.Params.get
    rw [hraw]
  rw [hstep]
  cases dec v <;> rfl

/-- C8: in both supported iteration states (empty and mapping), the
remaining-length bound is exact at every step: `size_hint` reports exactly
the number of pairs the iterator will still yield. -/
theorem size_hint_exact (it : Server.Iter) :
    Server.Iter.size_hint it
      = ((Server.Iter.collect it).length,
          some (Server.Iter.collect it).length) := by
  obtain ⟨inner⟩ := it
  cases inner with
  | Empty => rfl
  | Map rest => simp [Server.Iter.size_hint, Server.Iter.collect]

/-- C9: lookup agrees with iteration over a mapping container with unique
keys: a pair `(Named(k), v)` is yielded by the iteration exactly when
`get_raw (Named(k))` is present with value `v`, and every present key
appears exactly once among the yielded pairs. -/
theorem lookup_agrees_with_iteration (m : List (String × Common.Json))
    (h : (m.map Prod.fst).Nodup) (k : String) (v : Common.Json) :
    ((Server.ParamKey.String k, v)
        ∈ Server.Iter.collect ⟨Server.IterInner.Map m⟩
      ↔ (Server.Params.from' (Common.Params.Map m)).get_raw
          (Server.ParamKey.String k) = some v)
    ∧ ((Server.Params.from' (Common.Params.Map m)).get_raw
          (Server.ParamKey.String k) = some v →
        (Server.Iter.collect ⟨Server.IterInner.Map m⟩).countP
          (fun kv => match kv.1 with
            | Server.ParamKey.String s => s == k
            | Server.ParamKey.Index _ => false) = 1) := by
  have hraw : (Server.Params.from' (Common.Params.Map m)).get_raw
      (Server.ParamKey.String k) = Common.mapGet k m := rfl
  constructor
  · rw [hraw, ← mem_iff_mapGet m h k v]
    show (Server.ParamKey.String k, v)
        ∈ m.map (fun kv => (Server.ParamKey.String kv.1, kv.2)) ↔ (k, v) ∈ m
    rw [List.mem_map]
    constructor
    · rintro ⟨⟨k', v'⟩, hkv, heq⟩
      simp only [Prod.mk.injEq, Server.ParamKey.String.injEq] at heq
      obtain ⟨rfl, rfl⟩ := heq
      exact hkv
    · intro hmem
      exact ⟨(k, v), hmem, rfl⟩
  · intro hget
    rw [hraw] at hget
    have hcp : (Server.Iter.collect ⟨Server.IterInner.Map m⟩).countP
        (fun kv => match kv.1 with
          | Server.ParamKey.String s => s == k
          | Server.ParamKey.Index _ => false)
        = m.countP (fun kv => kv.1 == k) := by
      show ((m.map fun kv => (Server.ParamKey.String kv.1, kv.2)).countP _) = _
      rw [List.countP_map]
      rfl
    rw [hcp]
    exact countP_key_eq_one m h k v hget

/-- Witness for C9 at the mapping `[("z", 1), ("a", 2)]`, key `"z"`,
value `1`. -/
theorem lookup_agrees_with_iteration_witness :
    (([("z", Common.Json.num 1), ("a", Common.Json.num 2)].map
        Prod.fst).Nodup)
    ∧ (((Server.ParamKey.String "z", Common.Json.num 1)
          ∈ Server.Iter.collect ⟨Server.IterInner.Map
              [("z", Common.Json.num 1), ("a", Common.Json.num 2)]⟩
        ↔ (Server.Params.from' (Common.Params.Map
              [("z", Common.Json.num 1), ("a", Common.Json.num 2)])).get_raw
            (Server.ParamKey.String "z") = some (Common.Json.num 1))
      ∧ ((Server.Params.from' (Common.Params.Map
              [("z", Common.Json.num 1), ("a", Common.Json.num 2)])).get_raw
            (Server.ParamKey.String "z") = some (Common.Json.num 1) →
          (Server.Iter.collect ⟨Server.IterInner.Map
              [("z", Common.Json.num 1), ("a", Common.Json.num 2)]⟩).countP
            (fun kv => match kv.1 with
              | Server.ParamKey.String s => s == "z"
              | Server.ParamKey.Index _ => false) = 1)) :=
  ⟨by decide,
    lookup_agrees_with_iteration
      [("z", Common.Json.num 1), ("a", Common.Json.num 2)] (by decide) "z"
      (Common.Json.num 1)⟩

/-- C10: the view exposes its underlying container unchanged: wrapping a
container and reading it back through either as-reference conversion
yields exactly the same container. -/
theorem as_ref_from_id (p : Common.Params) :
    (Server.Params.from' p).as_ref = p ∧ (Server.Params.from' p).intoRef = p :=
  ⟨rfl, rfl⟩

end Jsonrpsee
